import Mathlib

/-!
Shallow embedding of the `ts-emitter` dispatch core (`src/listener.ts`,
`src/strategies.ts`, `src/emitter.ts`).

Handlers are identified by a `Nat` (reference identity, as compared by the
`is` methods of `OnListener`/`OnceListener`).  A handler's observable
behaviour on one call is `Except E (Res V E)`: `.error e` is a synchronous
throw, `.ok r` a normal return whose value `r` is either a plain value or a
promise that eventually fulfills or rejects.
-/

namespace TsEmitter

/-- Kind tag of a registered wrapper: `OnListener` (persistent) or
`OnceListener` (self-removing after a successful call). -/
inductive Kind where
  | on : Kind
  | once : Kind
deriving DecidableEq, Repr

/-- One entry of `EventListeners.listeners`: the wrapper kind plus the
identity of the wrapped handler function (`fn`). -/
structure Wrapper where
  kind : Kind
  fn : Nat
deriving DecidableEq, Repr

/-- The value a handler returns, as a strategy observes it: a plain
(non-promise) value, a promise that eventually fulfills with `v`, or a
promise that eventually rejects with `e`. -/
inductive Res (V E : Type) where
  | plain : V → Res V E
  | promiseF : V → Res V E
  | promiseR : E → Res V E
deriving DecidableEq, Repr

/-- Model of `EventListeners.removeListener`: `findIndex` of the first entry whose
stored `fn` equals the argument, then `shift` (index 0) or `splice(index, 1)`
— in both cases exactly that one entry is dropped; no match leaves the
array untouched. -/
def removeListener : List Wrapper → Nat → List Wrapper
  | [], _ => []
  | w :: ws, f => if w.fn = f then ws else w :: removeListener ws f

theorem removeListener_length_le (l : List Wrapper) (f : Nat) :
    (removeListener l f).length ≤ l.length := by
  induction l with
  | nil => simp [removeListener]
  | cons w ws ih =>
    by_cases h : w.fn = f <;> simp [removeListener, h] <;> omega

theorem removeListener_sublist (l : List Wrapper) (f : Nat) :
    (removeListener l f).Sublist l := by
  induction l with
  | nil => simp [removeListener]
  | cons w ws ih =>
    by_cases h : w.fn = f
    · simpa [removeListener, h] using List.sublist_cons_self w ws
    · simpa [removeListener, h] using ih.cons₂ w

theorem mem_removeListener_of_ne {w : Wrapper} {l : List Wrapper} {g : Nat}
    (hw : w ∈ l) (hne : w.fn ≠ g) : w ∈ removeListener l g := by
  induction l with
  | nil => simp at hw
  | cons x xs ih =>
    by_cases hx : x.fn = g
    · simp only [removeListener, if_pos hx]
      rcases List.mem_cons.mp hw with rfl | h
      · exact absurd hx hne
      · exact h
    · simp only [removeListener, if_neg hx]
      rcases List.mem_cons.mp hw with rfl | h
      · exact List.mem_cons_self _ _
      · exact List.mem_cons_of_mem _ (ih h)

/-- C9 helper: `removeListener` is the identity when no entry matches. -/
theorem removeListener_eq_of_not_mem (l : List Wrapper) (f : Nat)
    (h : ∀ u ∈ l, u.fn ≠ f) : removeListener l f = l := by
  induction l with
  | nil => rfl
  | cons w ws ih =>
    have hw : w.fn ≠ f := h w (List.mem_cons_self _ _)
    simp only [removeListener, if_neg hw]
    rw [ih (fun u hu => h u (List.mem_cons_of_mem _ hu))]

/-- C9 helper: `removeListener` deletes exactly the earliest match. -/
theorem removeListener_eq_of_first_match (l1 l2 : List Wrapper) (w : Wrapper)
    (f : Nat) (hw : w.fn = f) (h1 : ∀ u ∈ l1, u.fn ≠ f) :
    removeListener (l1 ++ w :: l2) f = l1 ++ l2 := by
  induction l1 with
  | nil => simp [removeListener, hw]
  | cons x xs ih =>
    have hx : x.fn ≠ f := h1 x (List.mem_cons_self _ _)
    simp only [List.cons_append, removeListener, if_neg hx]
    exact congrArg (fun t => x :: t) (ih (fun u hu => h1 u (List.mem_cons_of_mem _ hu)))

/-- C9: `remove(event, handler)` deletes exactly the earliest-position entry
whose stored handler reference equals the argument and leaves every other
entry (including later duplicates of the same handler) in place; if no entry
matches, the registry is unchanged and no error is raised. -/
theorem removeListener_removes_first_match_only (f : Nat) :
    (∀ l : List Wrapper, (∀ u ∈ l, u.fn ≠ f) → removeListener l f = l) ∧
    (∀ (l1 l2 : List Wrapper) (w : Wrapper), w.fn = f →
      (∀ u ∈ l1, u.fn ≠ f) → removeListener (l1 ++ w :: l2) f = l1 ++ l2) :=
  ⟨fun l h => removeListener_eq_of_not_mem l f h,
   fun l1 l2 w hw h1 => removeListener_eq_of_first_match l1 l2 w f hw h1⟩

/-- C9 witness: removing handler 2 from `[on 1, once 2, on 2]` deletes only
the earliest entry holding 2 (the `once` one) and keeps the later duplicate;
removing an unregistered handler 7 is a no-op. -/
theorem removeListener_removes_first_match_only_witness :
    removeListener [⟨.on, 1⟩, ⟨.once, 2⟩, ⟨.on, 2⟩] 2 = [⟨.on, 1⟩, ⟨.on, 2⟩] ∧
    removeListener [⟨.on, 1⟩, ⟨.once, 2⟩, ⟨.on, 2⟩] 7 =
      [⟨.on, 1⟩, ⟨.once, 2⟩, ⟨.on, 2⟩] := by
  constructor
  · exact (removeListener_removes_first_match_only 2).2
      [⟨.on, 1⟩] [⟨.on, 2⟩] ⟨.once, 2⟩ rfl (by decide)
  · exact (removeListener_removes_first_match_only 7).1 _ (by decide)

section Emission

variable {A V E : Type}

/-- Everything one full traversal of `invocations(event, ...params)` produces
when a strategy keeps pulling until exhaustion or a synchronous throw:
`calls` is the ordered list of handler calls `(fn, args)` actually made,
`yields` the values yielded to the consumer, `reg` the listener array after
the traversal, and `err` the synchronous throw that escaped, if any. -/
structure Drained (A V E : Type) where
  calls : List (Nat × A)
  yields : List (Res V E)
  reg : List Wrapper
  err : Option E
deriving DecidableEq, Repr

/-- The `invocations` generator driven to completion over the live listener
array, starting at iterator index `idx`.  Mirrors
`for (const listener of eventListeners) yield listener.invoke(...params)`
with the JS array iterator: `next()` reads `arr[idx]` and advances `idx`;
`invoke` first calls the handler (a throw propagates with no removal), and
for a `once` wrapper then removes the first entry matching its `fn` from the
same live array before the value is yielded. -/
def drainFrom (b : Nat → A → Except E (Res V E)) (args : A)
    (arr : List Wrapper) (idx : Nat) : Drained A V E :=
  if h : idx < arr.length then
    let w := arr[idx]
    match b w.fn args with
    | .error e => ⟨[(w.fn, args)], [], arr, some e⟩
    | .ok r =>
      let rest := drainFrom b args
        (if w.kind = .once then removeListener arr w.fn else arr) (idx + 1)
      ⟨(w.fn, args) :: rest.calls, r :: rest.yields, rest.reg, rest.err⟩
  else ⟨[], [], arr, none⟩
termination_by arr.length - idx
decreasing_by
  have hl := removeListener_length_le arr (arr[idx]).fn
  split
  · omega
  · omega

theorem drainFrom_stop (b : Nat → A → Except E (Res V E)) (args : A)
    (arr : List Wrapper) (idx : Nat) (h : ¬ idx < arr.length) :
    drainFrom b args arr idx = ⟨[], [], arr, none⟩ := by
  rw [drainFrom]
  exact dif_neg h

theorem drainFrom_throw (b : Nat → A → Except E (Res V E)) (args : A)
    (arr : List Wrapper) (idx : Nat) (h : idx < arr.length) (e : E)
    (hb : b arr[idx].fn args = .error e) :
    drainFrom b args arr idx = ⟨[(arr[idx].fn, args)], [], arr, some e⟩ := by
  rw [drainFrom, dif_pos h]
  simp only [hb]

theorem drainFrom_ok (b : Nat → A → Except E (Res V E)) (args : A)
    (arr : List Wrapper) (idx : Nat) (h : idx < arr.length) (r : Res V E)
    (hb : b arr[idx].fn args = .ok r) :
    drainFrom b args arr idx =
      ⟨(arr[idx].fn, args) ::
         (drainFrom b args
           (if arr[idx].kind = .once then removeListener arr arr[idx].fn
            else arr) (idx + 1)).calls,
       r :: (drainFrom b args
           (if arr[idx].kind = .once then removeListener arr arr[idx].fn
            else arr) (idx + 1)).yields,
       (drainFrom b args
           (if arr[idx].kind = .once then removeListener arr arr[idx].fn
            else arr) (idx + 1)).reg,
       (drainFrom b args
           (if arr[idx].kind = .once then removeListener arr arr[idx].fn
            else arr) (idx + 1)).err⟩ := by
  rw [drainFrom, dif_pos h]
  simp only [hb]

/-- Unfolding of a full traversal when every entry is an `on` wrapper: the
live array is never mutated, so the traversal is a plain left-to-right pass
over the handler ids (first component: calls, second: yields, third: the
escaped synchronous throw, if any). -/
def simpleRun (b : Nat → A → Except E (Res V E)) (args : A) :
    List Nat → List (Nat × A) × List (Res V E) × Option E
  | [] => ([], [], none)
  | g :: gs =>
    match b g args with
    | .error e => ([(g, args)], [], some e)
    | .ok r =>
      ((g, args) :: (simpleRun b args gs).1, r :: (simpleRun b args gs).2.1,
        (simpleRun b args gs).2.2)

theorem drainFrom_eq_simpleRun (b : Nat → A → Except E (Res V E)) (args : A)
    (arr : List Wrapper) (hk : ∀ w ∈ arr, w.kind = .on) (idx : Nat) :
    drainFrom b args arr idx =
      ⟨(simpleRun b args ((arr.drop idx).map Wrapper.fn)).1,
       (simpleRun b args ((arr.drop idx).map Wrapper.fn)).2.1,
       arr,
       (simpleRun b args ((arr.drop idx).map Wrapper.fn)).2.2⟩ := by
  have key : ∀ (n i : Nat), arr.length - i = n →
      drainFrom b args arr i =
        ⟨(simpleRun b args ((arr.drop i).map Wrapper.fn)).1,
         (simpleRun b args ((arr.drop i).map Wrapper.fn)).2.1,
         arr,
         (simpleRun b args ((arr.drop i).map Wrapper.fn)).2.2⟩ := by
    intro n
    induction n with
    | zero =>
      intro i hn
      have hge : arr.length ≤ i := by omega
      rw [drainFrom_stop b args arr i (by omega), List.drop_eq_nil_of_le hge]
      simp [simpleRun]
    | succ n ih =>
      intro i hn
      have h : i < arr.length := by omega
      have hkw : arr[i].kind = .on := hk _ (List.getElem_mem h)
      rw [List.drop_eq_getElem_cons h]
      cases hb : b arr[i].fn args with
      | error e =>
        rw [drainFrom_throw b args arr i h e hb]
        simp [simpleRun, hb]
      | ok r =>
        rw [drainFrom_ok b args arr i h r hb]
        have hne : ¬ arr[i].kind = Kind.once := by
          rw [hkw]; intro hc; exact Kind.noConfusion hc
        rw [if_neg hne, ih (i + 1) (by omega)]
        simp [simpleRun, hb]
  exact key (arr.length - idx) idx rfl

/-- Model of `ignoringEach` and the default callable of `defaultStrategy`:
`for (const _ of results) {}` pulls every element of the invocation
sequence and discards the values; the call returns void (`err = none`)
unless a listener threw, in which case the throw escapes synchronously. -/
def ignoreEachEmit (b : Nat → A → Except E (Res V E)) (args : A)
    (arr : List Wrapper) : Drained A V E :=
  drainFrom b args arr 0

theorem simpleRun_all_ok (b : Nat → A → Except E (Res V E)) (args : A)
    (l : List Nat) (hok : ∀ g ∈ l, (b g args).isOk = true) :
    (simpleRun b args l).1 = l.map (fun g => (g, args)) ∧
    (simpleRun b args l).2.2 = none := by
  induction l with
  | nil => simp [simpleRun]
  | cons g gs ih =>
    cases hb : b g args with
    | error e =>
      have := hok g (List.mem_cons_self _ _)
      rw [hb] at this
      simp [Except.isOk, Except.toBool] at this
    | ok r =>
      have ihr := ih (fun u hu => hok u (List.mem_cons_of_mem _ hu))
      simp [simpleRun, hb, ihr.1, ihr.2]

theorem simpleRun_prefix_throw (b : Nat → A → Except E (Res V E)) (args : A)
    (l1 : List Nat) (f : Nat) (l2 : List Nat) (e : E)
    (hok : ∀ g ∈ l1, (b g args).isOk = true) (hf : b f args = .error e) :
    (simpleRun b args (l1 ++ f :: l2)).1 = (l1 ++ [f]).map (fun g => (g, args)) ∧
    (simpleRun b args (l1 ++ f :: l2)).2.2 = some e := by
  induction l1 with
  | nil => simp [simpleRun, hf]
  | cons g gs ih =>
    cases hb : b g args with
    | error e2 =>
      have := hok g (List.mem_cons_self _ _)
      rw [hb] at this
      simp [Except.isOk, Except.toBool] at this
    | ok r =>
      have ihr := ih (fun u hu => hok u (List.mem_cons_of_mem _ hu))
      simp [simpleRun, hb, ihr.1, ihr.2]

/-- C1: under `ignoreEach`, with listeners `fns` all registered via `on` for
the event (no once-listeners) and each returning normally, one emission
invokes each listener exactly once, in registration order, passing each the
exact argument tuple given to `emit`; the call completes normally (returns
void, `err = none`) and the registry is left unchanged. -/
theorem ignoreEach_on_listeners_called_in_order
    (b : Nat → A → Except E (Res V E)) (args : A) (fns : List Nat)
    (hok : ∀ g ∈ fns, (b g args).isOk = true) :
    (ignoreEachEmit b args (fns.map (fun g => ⟨.on, g⟩))).calls =
        fns.map (fun g => (g, args)) ∧
    (ignoreEachEmit b args (fns.map (fun g => ⟨.on, g⟩))).err = none ∧
    (ignoreEachEmit b args (fns.map (fun g => ⟨.on, g⟩))).reg =
        fns.map (fun g => ⟨.on, g⟩) := by
  have hk : ∀ w ∈ fns.map (fun g => (⟨.on, g⟩ : Wrapper)), w.kind = .on := by
    intro w hw
    rcases List.mem_map.mp hw with ⟨g, _, rfl⟩
    rfl
  rw [ignoreEachEmit, drainFrom_eq_simpleRun b args _ hk 0]
  have hfns : ((fns.map (fun g => (⟨.on, g⟩ : Wrapper))).drop 0).map Wrapper.fn
      = fns := by
    simp only [List.drop_zero, List.map_map, Function.comp_def]
    exact List.map_id' _
  rw [hfns]
  have h := simpleRun_all_ok b args fns hok
  exact ⟨h.1, h.2, rfl⟩

/-- Handler table for witnesses: handler id 0 throws `7`; handler id `f`
with `f ≥ 1` returns the plain value `f + a` for argument `a`. -/
def bPlain : Nat → Nat → Except Nat (Res Nat Nat) := fun f a =>
  if f = 0 then .error 7 else .ok (.plain (f + a))

/-- C1 witness: three `on`-listeners 1, 2, 3, emitted with argument 10. -/
theorem ignoreEach_on_listeners_called_in_order_witness :
    (ignoreEachEmit bPlain 10 [⟨.on, 1⟩, ⟨.on, 2⟩, ⟨.on, 3⟩]).calls =
        [(1, 10), (2, 10), (3, 10)] ∧
    (ignoreEachEmit bPlain 10 [⟨.on, 1⟩, ⟨.on, 2⟩, ⟨.on, 3⟩]).err = none ∧
    (ignoreEachEmit bPlain 10 [⟨.on, 1⟩, ⟨.on, 2⟩, ⟨.on, 3⟩]).reg =
        [⟨.on, 1⟩, ⟨.on, 2⟩, ⟨.on, 3⟩] :=
  ignoreEach_on_listeners_called_in_order bPlain 10 [1, 2, 3] (by decide)

/-- C3: under `ignoreEach`, if the k-th registered listener throws
synchronously during an emission (all earlier listeners returning
normally), the thrown value propagates synchronously out of the `emit`
call (`err = some e`) and the listeners registered after it are never
invoked for that emission: the call list stops exactly at the thrower. -/
theorem ignoreEach_throw_propagates_and_halts
    (b : Nat → A → Except E (Res V E)) (args : A) (l1 l2 : List Nat)
    (f : Nat) (e : E)
    (hok : ∀ g ∈ l1, (b g args).isOk = true) (hf : b f args = .error e) :
    (ignoreEachEmit b args ((l1 ++ f :: l2).map (fun g => ⟨.on, g⟩))).calls =
        (l1 ++ [f]).map (fun g => (g, args)) ∧
    (ignoreEachEmit b args ((l1 ++ f :: l2).map (fun g => ⟨.on, g⟩))).err =
        some e := by
  have hk : ∀ w ∈ (l1 ++ f :: l2).map (fun g => (⟨.on, g⟩ : Wrapper)),
      w.kind = .on := by
    intro w hw
    rcases List.mem_map.mp hw with ⟨g, _, rfl⟩
    rfl
  rw [ignoreEachEmit, drainFrom_eq_simpleRun b args _ hk 0]
  have hfns : (((l1 ++ f :: l2).map (fun g => (⟨.on, g⟩ : Wrapper))).drop 0).map
      Wrapper.fn = l1 ++ f :: l2 := by
    simp only [List.drop_zero, List.map_map, Function.comp_def]
    exact List.map_id' _
  rw [hfns]
  have h := simpleRun_prefix_throw b args l1 f l2 e hok hf
  exact ⟨h.1, h.2⟩

/-- C3 witness: listeners 1, 2 return normally, listener 0 throws `7`,
listener 3 is never invoked. -/
theorem ignoreEach_throw_propagates_and_halts_witness :
    (ignoreEachEmit bPlain 5
        [⟨.on, 1⟩, ⟨.on, 2⟩, ⟨.on, 0⟩, ⟨.on, 3⟩]).calls =
      [(1, 5), (2, 5), (0, 5)] ∧
    (ignoreEachEmit bPlain 5
        [⟨.on, 1⟩, ⟨.on, 2⟩, ⟨.on, 0⟩, ⟨.on, 3⟩]).err = some 7 :=
  ignoreEach_throw_propagates_and_halts bPlain 5 [1, 2] [3] 0 7
    (by decide) (by rfl)

/-- Eventual outcome of the promise returned by an `awaitAll` emission. -/
inductive AllOutcome (V E : Type) where
  | resolvedA : List V → AllOutcome V E
  | rejectedA : E → AllOutcome V E
deriving DecidableEq, Repr

/-- Result of one `awaitAll` emission as the caller observes it: either an
exception thrown synchronously out of the `emit` call, or a returned promise
together with its eventual outcome. -/
inductive EmitOut (V E : Type) where
  | syncThrow : E → EmitOut V E
  | promise : AllOutcome V E → EmitOut V E
deriving DecidableEq, Repr

/-- The `Promise.all` aggregation over the yielded results: if every result
fulfills, the ordered array of values; otherwise a rejection.  (Which
rejection wins in JS depends on settlement timing; this model takes the
earliest in array order — the claims only rely on rejection happening.) -/
def allAgg : List (Res V E) → AllOutcome V E
  | [] => .resolvedA []
  | .promiseR e :: _ => .rejectedA e
  | .plain v :: ys =>
    match allAgg ys with
    | .resolvedA vs => .resolvedA (v :: vs)
    | .rejectedA e => .rejectedA e
  | .promiseF v :: ys =>
    match allAgg ys with
    | .resolvedA vs => .resolvedA (v :: vs)
    | .rejectedA e => .rejectedA e

/-- Model of `awaitingAll` / `defaultStrategy.awaitAll`, i.e.
`Promise.all(invocations(...))`.
`Promise.all` pulls the whole iterable eagerly, starting every listener
before any result is awaited.  Per ECMAScript (`IfAbruptRejectPromise`
around the iteration), an exception thrown while pulling makes the returned
promise reject with it — it is never rethrown synchronously to the caller;
this is also what the repository's tests assert (`await expect(...).to.be
.rejected` for a synchronously throwing listener). -/
def awaitAllEmit (b : Nat → A → Except E (Res V E)) (args : A)
    (arr : List Wrapper) : EmitOut V E :=
  match (drainFrom b args arr 0).err with
  | some e => .promise (.rejectedA e)
  | none => .promise (allAgg (drainFrom b args arr 0).yields)

/-- A per-listener outcome record of `Promise.allSettled`. -/
inductive SettledRec (V E : Type) where
  | fulfilled : V → SettledRec V E
  | rejectedRec : E → SettledRec V E
deriving DecidableEq, Repr

/-- The settled record of one yielded result: a plain value and a fulfilling
promise settle as `fulfilled`, a rejecting promise as `rejected`. -/
def settleRec : Res V E → SettledRec V E
  | .plain v => .fulfilled v
  | .promiseF v => .fulfilled v
  | .promiseR e => .rejectedRec e

/-- Result of one `awaitAllSettled` emission as the caller observes it. -/
inductive EmitOutS (V E : Type) where
  | syncThrowS : E → EmitOutS V E
  | promiseRejS : E → EmitOutS V E
  | promiseResS : List (SettledRec V E) → EmitOutS V E
deriving DecidableEq, Repr

/-- Model of `awaitingAllSettled` / `defaultStrategy.awaitAllSettled`:
`Promise.allSettled(invocations(...))`.  Same eager pull as `awaitAll`; an
exception thrown while pulling rejects the returned promise (ECMAScript
`IfAbruptRejectPromise`); otherwise the promise fulfills with the ordered
per-listener outcome records, regardless of rejections among them. -/
def awaitAllSettledEmit (b : Nat → A → Except E (Res V E)) (args : A)
    (arr : List Wrapper) : EmitOutS V E :=
  match (drainFrom b args arr 0).err with
  | some e => .promiseRejS e
  | none => .promiseResS ((drainFrom b args arr 0).yields.map settleRec)

/-- Whether a handler outcome is a normal return of a non-rejecting result. -/
def okYield : Except E (Res V E) → Bool
  | .ok (.plain _) => true
  | .ok (.promiseF _) => true
  | _ => false

/-- The result a normally-returning handler yielded (`default` placeholder
for a throwing handler; unused under the hypotheses it appears with). -/
def okRes [Inhabited V] : Except E (Res V E) → Res V E
  | .ok r => r
  | .error _ => .plain default

/-- The fulfillment value of a handler outcome (meaningful when `okYield`). -/
def fulfillVal [Inhabited V] : Except E (Res V E) → V
  | .ok (.plain v) => v
  | .ok (.promiseF v) => v
  | _ => default

/-- Whether an `awaitAll` emission outcome is a rejecting promise. -/
def isRejectedOut : EmitOut V E → Bool
  | .promise (.rejectedA _) => true
  | _ => false

theorem simpleRun_yields_all_ok [Inhabited V]
    (b : Nat → A → Except E (Res V E)) (args : A) (l : List Nat)
    (hok : ∀ g ∈ l, (b g args).isOk = true) :
    (simpleRun b args l).2.1 = l.map (fun g => okRes (b g args)) := by
  induction l with
  | nil => simp [simpleRun]
  | cons g gs ih =>
    cases hb : b g args with
    | error e =>
      have := hok g (List.mem_cons_self _ _)
      rw [hb] at this
      simp [Except.isOk, Except.toBool] at this
    | ok r =>
      have ihr := ih (fun u hu => hok u (List.mem_cons_of_mem _ hu))
      simp [simpleRun, hb, ihr, okRes]

theorem allAgg_all_fulfilled [Inhabited V]
    (b : Nat → A → Except E (Res V E)) (args : A) (l : List Nat)
    (h : ∀ g ∈ l, okYield (b g args) = true) :
    allAgg (l.map (fun g => okRes (b g args))) =
      .resolvedA (l.map (fun g => fulfillVal (b g args))) := by
  induction l with
  | nil => simp [allAgg]
  | cons g gs ih =>
    have hg := h g (List.mem_cons_self _ _)
    have ihr := ih (fun u hu => h u (List.mem_cons_of_mem _ hu))
    cases hb : b g args with
    | error e => rw [hb] at hg; simp [okYield] at hg
    | ok r =>
      cases r with
      | promiseR e => rw [hb] at hg; simp [okYield] at hg
      | plain v =>
        have h1 : okRes (b g args) = Res.plain v := by rw [hb]; rfl
        have h2 : fulfillVal (b g args) = v := by rw [hb]; rfl
        simp only [List.map_cons, h1, h2, allAgg, ihr]
      | promiseF v =>
        have h1 : okRes (b g args) = Res.promiseF v := by rw [hb]; rfl
        have h2 : fulfillVal (b g args) = v := by rw [hb]; rfl
        simp only [List.map_cons, h1, h2, allAgg, ihr]

theorem allAgg_rejects_of_mem (l : List (Res V E))
    (h : ∃ y ∈ l, ∃ e, y = .promiseR e) :
    ∃ e, allAgg l = .rejectedA e := by
  induction l with
  | nil => simp at h
  | cons y ys ih =>
    rcases h with ⟨z, hz, e, rfl⟩
    rcases List.mem_cons.mp hz with rfl | hmem
    · exact ⟨e, rfl⟩
    · cases y with
      | promiseR e2 => exact ⟨e2, rfl⟩
      | plain v =>
        rcases ih ⟨_, hmem, e, rfl⟩ with ⟨e3, he3⟩
        exact ⟨e3, by simp [allAgg, he3]⟩
      | promiseF v =>
        rcases ih ⟨_, hmem, e, rfl⟩ with ⟨e3, he3⟩
        exact ⟨e3, by simp [allAgg, he3]⟩

/-- C6: under `awaitAll`, with listeners `fns` all registered via `on` and
none throwing synchronously, every registered listener is invoked (during
the eager pull, before any result is awaited — the call list is complete
whatever the aggregate later does); if every result fulfills, the emission's
promise resolves to the array of their values in registration order; if any
result rejects, the promise rejects even though all listeners were already
invoked. -/
theorem awaitAll_invokes_all_then_aggregates [Inhabited V]
    (b : Nat → A → Except E (Res V E)) (args : A) (fns : List Nat)
    (hok : ∀ g ∈ fns, (b g args).isOk = true) :
    (drainFrom b args (fns.map (fun g => ⟨.on, g⟩)) 0).calls =
        fns.map (fun g => (g, args)) ∧
    ((∀ g ∈ fns, okYield (b g args) = true) →
      awaitAllEmit b args (fns.map (fun g => ⟨.on, g⟩)) =
        .promise (.resolvedA (fns.map (fun g => fulfillVal (b g args))))) ∧
    ((∃ g ∈ fns, ∃ e, b g args = .ok (.promiseR e)) →
      isRejectedOut (awaitAllEmit b args (fns.map (fun g => ⟨.on, g⟩))) =
        true) := by
  have hk : ∀ w ∈ fns.map (fun g => (⟨.on, g⟩ : Wrapper)), w.kind = .on := by
    intro w hw
    rcases List.mem_map.mp hw with ⟨g, _, rfl⟩
    rfl
  have hbr := drainFrom_eq_simpleRun b args (fns.map (fun g => ⟨.on, g⟩)) hk 0
  have hfns : ((fns.map (fun g => (⟨.on, g⟩ : Wrapper))).drop 0).map Wrapper.fn
      = fns := by
    simp only [List.drop_zero, List.map_map, Function.comp_def]
    exact List.map_id' _
  rw [hfns] at hbr
  refine ⟨?_, ?_, ?_⟩
  · rw [hbr]
    exact (simpleRun_all_ok b args fns hok).1
  · intro hall
    rw [awaitAllEmit, hbr]
    simp only [(simpleRun_all_ok b args fns hok).2]
    rw [simpleRun_yields_all_ok b args fns hok,
      allAgg_all_fulfilled b args fns hall]
  · intro ⟨g, hg, e, he⟩
    rw [awaitAllEmit, hbr]
    simp only [(simpleRun_all_ok b args fns hok).2]
    rw [simpleRun_yields_all_ok b args fns hok]
    have hrej : ∃ y ∈ fns.map (fun g => okRes (b g args)), ∃ e2,
        y = Res.promiseR e2 := by
      refine ⟨okRes (b g args), List.mem_map_of_mem _ hg, e, ?_⟩
      rw [he]
      rfl
    rcases allAgg_rejects_of_mem _ hrej with ⟨e3, he3⟩
    rw [he3]
    rfl

/-- Handler table with promises for witnesses: id 0 throws `7`; id 1 returns
a promise fulfilling with `a + 1`; id 2 returns a promise rejecting with
`9`; any other id returns the plain value `f + a`. -/
def bPromise : Nat → Nat → Except Nat (Res Nat Nat) := fun f a =>
  if f = 0 then .error 7
  else if f = 1 then .ok (.promiseF (a + 1))
  else if f = 2 then .ok (.promiseR 9)
  else .ok (.plain (f + a))

/-- C6 witness: listeners 1, 3 fulfill with 11 and 13, resolving in order;
adding the rejecting listener 2 still invokes all three but rejects. -/
theorem awaitAll_invokes_all_then_aggregates_witness :
    (drainFrom bPromise 10 [⟨.on, 1⟩, ⟨.on, 3⟩] 0).calls =
        [(1, 10), (3, 10)] ∧
    awaitAllEmit bPromise 10 [⟨.on, 1⟩, ⟨.on, 3⟩] =
        .promise (.resolvedA [11, 13]) ∧
    (drainFrom bPromise 10 [⟨.on, 1⟩, ⟨.on, 2⟩, ⟨.on, 3⟩] 0).calls =
        [(1, 10), (2, 10), (3, 10)] ∧
    isRejectedOut (awaitAllEmit bPromise 10 [⟨.on, 1⟩, ⟨.on, 2⟩, ⟨.on, 3⟩]) =
        true := by
  have h1 := awaitAll_invokes_all_then_aggregates bPromise 10 [1, 3]
    (by decide)
  have h2 := awaitAll_invokes_all_then_aggregates bPromise 10 [1, 2, 3]
    (by decide)
  exact ⟨h1.1, h1.2.1 (by decide), h2.1, h2.2.2 ⟨2, by decide, 9, rfl⟩⟩

/-- C7: under `awaitAllSettled`, when no listener throws synchronously, the
emission's promise fulfills with an array, in registration order, of
per-listener outcome records, each tagged fulfilled (with the value) or
rejected (with the reason); rejections among the results never reject the
aggregate promise itself (the outcome is `promiseResS`, never
`promiseRejS`). -/
theorem awaitAllSettled_orders_outcome_records [Inhabited V]
    (b : Nat → A → Except E (Res V E)) (args : A) (fns : List Nat)
    (hok : ∀ g ∈ fns, (b g args).isOk = true) :
    awaitAllSettledEmit b args (fns.map (fun g => ⟨.on, g⟩)) =
      .promiseResS (fns.map (fun g => settleRec (okRes (b g args)))) := by
  have hk : ∀ w ∈ fns.map (fun g => (⟨.on, g⟩ : Wrapper)), w.kind = .on := by
    intro w hw
    rcases List.mem_map.mp hw with ⟨g, _, rfl⟩
    rfl
  have hbr := drainFrom_eq_simpleRun b args (fns.map (fun g => ⟨.on, g⟩)) hk 0
  have hfns : ((fns.map (fun g => (⟨.on, g⟩ : Wrapper))).drop 0).map Wrapper.fn
      = fns := by
    simp only [List.drop_zero, List.map_map, Function.comp_def]
    exact List.map_id' _
  rw [hfns] at hbr
  rw [awaitAllSettledEmit, hbr]
  simp only [(simpleRun_all_ok b args fns hok).2]
  rw [simpleRun_yields_all_ok b args fns hok]
  simp [List.map_map, Function.comp_def]

/-- C7 witness: listeners 1, 2, 3 give `[fulfilled 11, rejected 9,
fulfilled 13]`, in registration order, and the aggregate still fulfills. -/
theorem awaitAllSettled_orders_outcome_records_witness :
    awaitAllSettledEmit bPromise 10 [⟨.on, 1⟩, ⟨.on, 2⟩, ⟨.on, 3⟩] =
      .promiseResS [.fulfilled 11, .rejectedRec 9, .fulfilled 13] :=
  awaitAllSettled_orders_outcome_records bPromise 10 [1, 2, 3] (by decide)

/-- C8 counterexample: listener 0 throws `7` synchronously during the eager
pull, with listener 1 still unpulled.  The claim says the exception
propagates immediately to the caller of `emit`, bypassing the
`Promise.all` / `Promise.allSettled` aggregate machinery entirely; on the
code (ECMAScript catches iteration failures into the returned promise, and
the repository's tests assert exactly this) the `emit` call instead returns
a promise that rejects with the thrown value, so the emission is not a
synchronous throw. -/
theorem awaitAll_sync_throw_counterexample :
    awaitAllEmit bPlain 5 [⟨.on, 0⟩, ⟨.on, 1⟩] = .promise (.rejectedA 7) ∧
    awaitAllEmit bPlain 5 [⟨.on, 0⟩, ⟨.on, 1⟩] ≠ .syncThrow 7 ∧
    awaitAllSettledEmit bPlain 5 [⟨.on, 0⟩, ⟨.on, 1⟩] = .promiseRejS 7 ∧
    awaitAllSettledEmit bPlain 5 [⟨.on, 0⟩, ⟨.on, 1⟩] ≠ .syncThrowS 7 := by
  have h : drainFrom bPlain 5 [⟨.on, 0⟩, ⟨.on, 1⟩] 0 =
      ⟨[(0, 5)], [], [⟨.on, 0⟩, ⟨.on, 1⟩], some 7⟩ := by
    simp [drainFrom, bPlain]
  refine ⟨?_, ?_, ?_, ?_⟩ <;> simp [awaitAllEmit, awaitAllSettledEmit, h]

/-- C8 (amended): under `awaitAll` and `awaitAllSettled`, if a listener
throws synchronously during the eager pull phase, the remaining
not-yet-pulled listeners are never started and the promise returned by
`emit` rejects with the thrown value; in particular, for `awaitAllSettled`
the synchronous throw is not captured as a per-listener outcome record —
the aggregate promise rejects instead of fulfilling with records. -/
theorem awaitAll_sync_throw_rejects_promise
    (b : Nat → A → Except E (Res V E)) (args : A) (l1 l2 : List Nat)
    (f : Nat) (e : E)
    (hok : ∀ g ∈ l1, (b g args).isOk = true) (hf : b f args = .error e) :
    (drainFrom b args ((l1 ++ f :: l2).map (fun g => ⟨.on, g⟩)) 0).calls =
        (l1 ++ [f]).map (fun g => (g, args)) ∧
    awaitAllEmit b args ((l1 ++ f :: l2).map (fun g => ⟨.on, g⟩)) =
        .promise (.rejectedA e) ∧
    awaitAllSettledEmit b args ((l1 ++ f :: l2).map (fun g => ⟨.on, g⟩)) =
        .promiseRejS e := by
  have hk : ∀ w ∈ (l1 ++ f :: l2).map (fun g => (⟨.on, g⟩ : Wrapper)),
      w.kind = .on := by
    intro w hw
    rcases List.mem_map.mp hw with ⟨g, _, rfl⟩
    rfl
  have hbr := drainFrom_eq_simpleRun b args
    ((l1 ++ f :: l2).map (fun g => ⟨.on, g⟩)) hk 0
  have hfns : (((l1 ++ f :: l2).map (fun g => (⟨.on, g⟩ : Wrapper))).drop
      0).map Wrapper.fn = l1 ++ f :: l2 := by
    simp only [List.drop_zero, List.map_map, Function.comp_def]
    exact List.map_id' _
  rw [hfns] at hbr
  have hs := simpleRun_prefix_throw b args l1 f l2 e hok hf
  refine ⟨?_, ?_, ?_⟩
  · rw [hbr]
    exact hs.1
  · rw [awaitAllEmit, hbr]
    simp only [hs.2]
  · rw [awaitAllSettledEmit, hbr]
    simp only [hs.2]

/-- C8 amended-claim witness: listener 1 returns, listener 0 throws `7`,
listener 2 is never started; both aggregates reject with the raw `7`. -/
theorem awaitAll_sync_throw_rejects_promise_witness :
    (drainFrom bPlain 5 [⟨.on, 1⟩, ⟨.on, 0⟩, ⟨.on, 2⟩] 0).calls =
        [(1, 5), (0, 5)] ∧
    awaitAllEmit bPlain 5 [⟨.on, 1⟩, ⟨.on, 0⟩, ⟨.on, 2⟩] =
        .promise (.rejectedA 7) ∧
    awaitAllSettledEmit bPlain 5 [⟨.on, 1⟩, ⟨.on, 0⟩, ⟨.on, 2⟩] =
        .promiseRejS 7 :=
  awaitAll_sync_throw_rejects_promise bPlain 5 [1] [2] 0 7
    (by decide) (by rfl)

/-- One observable scheduling event of an `awaitEach` emission: a handler
call (made while pulling the next element), or the settlement of a pulled
result (the `await r` of the loop; a plain value settles trivially, a
promise settles by fulfilling or rejecting). -/
inductive Ev (A : Type) where
  | call : Nat → A → Ev A
  | settled : Nat → Ev A
deriving DecidableEq, Repr

/-- Everything one `awaitEach` emission produces: the ordered event trace,
the listener array afterwards, and the failure the returned promise
rejects with, if any (`none` means the promise fulfills). -/
structure EachRun (A E : Type) where
  evs : List (Ev A)
  reg : List Wrapper
  err : Option E
deriving DecidableEq, Repr

/-- Model of `awaitingEach` / `defaultStrategy.awaitEach`:
`for (const r of results) { await r; }` inside an async function.  Each
iteration pulls one element — calling the handler; a synchronous throw
rejects the returned promise and ends the loop with nothing settled — and
then awaits the pulled result: a rejection rejects the returned promise
and abandons the loop (the generator is closed, no further listener runs);
otherwise the next element is pulled only after this settlement. -/
def awaitEachFrom (b : Nat → A → Except E (Res V E)) (args : A)
    (arr : List Wrapper) (idx : Nat) : EachRun A E :=
  if h : idx < arr.length then
    let w := arr[idx]
    match b w.fn args with
    | .error e => ⟨[.call w.fn args], arr, some e⟩
    | .ok (.promiseR e) =>
      ⟨[.call w.fn args, .settled w.fn],
       if w.kind = .once then removeListener arr w.fn else arr, some e⟩
    | .ok _ =>
      let rest := awaitEachFrom b args
        (if w.kind = .once then removeListener arr w.fn else arr) (idx + 1)
      ⟨.call w.fn args :: .settled w.fn :: rest.evs, rest.reg, rest.err⟩
  else ⟨[], arr, none⟩
termination_by arr.length - idx
decreasing_by
  have hl := removeListener_length_le arr (arr[idx]).fn
  split
  · omega
  · omega

theorem awaitEachFrom_stop (b : Nat → A → Except E (Res V E)) (args : A)
    (arr : List Wrapper) (idx : Nat) (h : ¬ idx < arr.length) :
    awaitEachFrom b args arr idx = ⟨[], arr, none⟩ := by
  rw [awaitEachFrom]
  exact dif_neg h

theorem awaitEachFrom_throw (b : Nat → A → Except E (Res V E)) (args : A)
    (arr : List Wrapper) (idx : Nat) (h : idx < arr.length) (e : E)
    (hb : b arr[idx].fn args = .error e) :
    awaitEachFrom b args arr idx =
      ⟨[.call arr[idx].fn args], arr, some e⟩ := by
  rw [awaitEachFrom, dif_pos h]
  simp only [hb]

theorem awaitEachFrom_reject (b : Nat → A → Except E (Res V E)) (args : A)
    (arr : List Wrapper) (idx : Nat) (h : idx < arr.length) (e : E)
    (hb : b arr[idx].fn args = .ok (.promiseR e)) :
    awaitEachFrom b args arr idx =
      ⟨[.call arr[idx].fn args, .settled arr[idx].fn],
       if arr[idx].kind = .once then removeListener arr arr[idx].fn else arr,
       some e⟩ := by
  rw [awaitEachFrom, dif_pos h]
  simp only [hb]

theorem awaitEachFrom_plain (b : Nat → A → Except E (Res V E)) (args : A)
    (arr : List Wrapper) (idx : Nat) (h : idx < arr.length) (v : V)
    (hb : b arr[idx].fn args = .ok (.plain v)) :
    awaitEachFrom b args arr idx =
      ⟨.call arr[idx].fn args :: .settled arr[idx].fn ::
         (awaitEachFrom b args
           (if arr[idx].kind = .once then removeListener arr arr[idx].fn
            else arr) (idx + 1)).evs,
       (awaitEachFrom b args
           (if arr[idx].kind = .once then removeListener arr arr[idx].fn
            else arr) (idx + 1)).reg,
       (awaitEachFrom b args
           (if arr[idx].kind = .once then removeListener arr arr[idx].fn
            else arr) (idx + 1)).err⟩ := by
  rw [awaitEachFrom, dif_pos h]
  simp only [hb]

theorem awaitEachFrom_promiseF (b : Nat → A → Except E (Res V E)) (args : A)
    (arr : List Wrapper) (idx : Nat) (h : idx < arr.length) (v : V)
    (hb : b arr[idx].fn args = .ok (.promiseF v)) :
    awaitEachFrom b args arr idx =
      ⟨.call arr[idx].fn args :: .settled arr[idx].fn ::
         (awaitEachFrom b args
           (if arr[idx].kind = .once then removeListener arr arr[idx].fn
            else arr) (idx + 1)).evs,
       (awaitEachFrom b args
           (if arr[idx].kind = .once then removeListener arr arr[idx].fn
            else arr) (idx + 1)).reg,
       (awaitEachFrom b args
           (if arr[idx].kind = .once then removeListener arr arr[idx].fn
            else arr) (idx + 1)).err⟩ := by
  rw [awaitEachFrom, dif_pos h]
  simp only [hb]

/-- Checks that no call is made before the previous pulled result settled:
the trace is (call f, settled f) pairs, possibly ending in a lone call
whose handler threw synchronously (so nothing of it settled). -/
def isSeq {A : Type} : List (Ev A) → Bool
  | [] => true
  | [.call _ _] => true
  | .call f _ :: .settled g :: t => f == g && isSeq t
  | _ => false

/-- Checks that the trace is exactly (call f, settled f) pairs: every
handler call has its result settled. -/
def isPaired {A : Type} : List (Ev A) → Bool
  | [] => true
  | .call f _ :: .settled g :: t => f == g && isPaired t
  | _ => false

/-- The handler calls recorded in an event trace, in order. -/
def callsOf {A : Type} : List (Ev A) → List (Nat × A)
  | [] => []
  | .call f a :: t => (f, a) :: callsOf t
  | .settled _ :: t => callsOf t

/-- C4: under `awaitEach`, for every registry and every emission, the event
trace consists of (call, settled) pairs — listener k+1 is never invoked
before listener k's pulled result has settled — possibly ending in one lone
call whose handler threw synchronously; and when the returned promise
fulfills (`err = none`), every listener's result has settled (the trace is
fully paired), so the promise fulfills only after every result settled
sequentially. -/
theorem awaitEach_calls_only_after_previous_settles
    (b : Nat → A → Except E (Res V E)) (args : A) (arr : List Wrapper) :
    isSeq (awaitEachFrom b args arr 0).evs = true ∧
    ((awaitEachFrom b args arr 0).err = none →
      isPaired (awaitEachFrom b args arr 0).evs = true) := by
  have key : ∀ (n : Nat) (arr2 : List Wrapper) (i : Nat),
      arr2.length - i ≤ n →
      isSeq (awaitEachFrom b args arr2 i).evs = true ∧
      ((awaitEachFrom b args arr2 i).err = none →
        isPaired (awaitEachFrom b args arr2 i).evs = true) := by
    intro n
    induction n with
    | zero =>
      intro arr2 i hn
      rw [awaitEachFrom_stop b args arr2 i (by omega)]
      exact ⟨rfl, fun _ => rfl⟩
    | succ n ih =>
      intro arr2 i hn
      by_cases h : i < arr2.length
      · have hlen : (if arr2[i].kind = .once
            then removeListener arr2 arr2[i].fn else arr2).length - (i + 1)
            ≤ n := by
          have hl := removeListener_length_le arr2 arr2[i].fn
          split
          · omega
          · omega
        cases hb : b arr2[i].fn args with
        | error e =>
          rw [awaitEachFrom_throw b args arr2 i h e hb]
          exact ⟨rfl, by intro hc; cases hc⟩
        | ok r =>
          cases r with
          | promiseR e =>
            rw [awaitEachFrom_reject b args arr2 i h e hb]
            refine ⟨?_, by intro hc; cases hc⟩
            simp [isSeq]
          | plain v =>
            rw [awaitEachFrom_plain b args arr2 i h v hb]
            have ihr := ih _ (i + 1) hlen
            refine ⟨?_, fun he => ?_⟩
            · simp [isSeq, ihr.1]
            · simp [isPaired, ihr.2 he]
          | promiseF v =>
            rw [awaitEachFrom_promiseF b args arr2 i h v hb]
            have ihr := ih _ (i + 1) hlen
            refine ⟨?_, fun he => ?_⟩
            · simp [isSeq, ihr.1]
            · simp [isPaired, ihr.2 he]
      · rw [awaitEachFrom_stop b args arr2 i h]
        exact ⟨rfl, fun _ => rfl⟩
  exact key (arr.length) arr 0 (by omega)

/-- C4 witness: two fulfilling listeners 1, 3: the trace alternates
call/settled and is fully paired on fulfillment. -/
theorem awaitEach_calls_only_after_previous_settles_witness :
    isSeq (awaitEachFrom bPromise 10 [⟨.on, 1⟩, ⟨.on, 3⟩] 0).evs = true ∧
    isPaired (awaitEachFrom bPromise 10 [⟨.on, 1⟩, ⟨.on, 3⟩] 0).evs =
      true := by
  have h := awaitEach_calls_only_after_previous_settles bPromise 10
    [⟨.on, 1⟩, ⟨.on, 3⟩]
  exact ⟨h.1, h.2 (by simp [awaitEachFrom, bPromise])⟩

/-- Unfolding of an `awaitEach` emission over an all-`on` registry: a plain
sequential pass over the handler ids, stopping at the first synchronous
throw (lone call) or rejection (call and settlement). -/
def simpleEach (b : Nat → A → Except E (Res V E)) (args : A) :
    List Nat → List (Ev A) × Option E
  | [] => ([], none)
  | g :: gs =>
    match b g args with
    | .error e => ([.call g args], some e)
    | .ok (.promiseR e) => ([.call g args, .settled g], some e)
    | .ok _ =>
      (.call g args :: .settled g :: (simpleEach b args gs).1,
        (simpleEach b args gs).2)

theorem awaitEachFrom_eq_simpleEach (b : Nat → A → Except E (Res V E))
    (args : A) (arr : List Wrapper) (hk : ∀ w ∈ arr, w.kind = .on)
    (idx : Nat) :
    awaitEachFrom b args arr idx =
      ⟨(simpleEach b args ((arr.drop idx).map Wrapper.fn)).1, arr,
       (simpleEach b args ((arr.drop idx).map Wrapper.fn)).2⟩ := by
  have key : ∀ (n i : Nat), arr.length - i = n →
      awaitEachFrom b args arr i =
        ⟨(simpleEach b args ((arr.drop i).map Wrapper.fn)).1, arr,
         (simpleEach b args ((arr.drop i).map Wrapper.fn)).2⟩ := by
    intro n
    induction n with
    | zero =>
      intro i hn
      have hge : arr.length ≤ i := by omega
      rw [awaitEachFrom_stop b args arr i (by omega),
        List.drop_eq_nil_of_le hge]
      simp [simpleEach]
    | succ n ih =>
      intro i hn
      have h : i < arr.length := by omega
      have hkw : arr[i].kind = .on := hk _ (List.getElem_mem h)
      have hne : ¬ arr[i].kind = Kind.once := by
        rw [hkw]; intro hc; exact Kind.noConfusion hc
      rw [List.drop_eq_getElem_cons h]
      cases hb : b arr[i].fn args with
      | error e =>
        rw [awaitEachFrom_throw b args arr i h e hb]
        simp [simpleEach, hb]
      | ok r =>
        cases r with
        | promiseR e =>
          rw [awaitEachFrom_reject b args arr i h e hb, if_neg hne]
          simp [simpleEach, hb]
        | plain v =>
          rw [awaitEachFrom_plain b args arr i h v hb, if_neg hne,
            ih (i + 1) (by omega)]
          simp [simpleEach, hb]
        | promiseF v =>
          rw [awaitEachFrom_promiseF b args arr i h v hb, if_neg hne,
            ih (i + 1) (by omega)]
          simp [simpleEach, hb]
  exact key (arr.length - idx) idx rfl

theorem simpleEach_prefix_fail (b : Nat → A → Except E (Res V E)) (args : A)
    (l1 : List Nat) (f : Nat) (l2 : List Nat) (e : E)
    (hok : ∀ g ∈ l1, okYield (b g args) = true)
    (hf : b f args = .error e ∨ b f args = .ok (.promiseR e)) :
    callsOf (simpleEach b args (l1 ++ f :: l2)).1 =
        (l1 ++ [f]).map (fun g => (g, args)) ∧
    (simpleEach b args (l1 ++ f :: l2)).2 = some e := by
  induction l1 with
  | nil =>
    rcases hf with hf | hf
    · simp [simpleEach, hf, callsOf]
    · simp [simpleEach, hf, callsOf]
  | cons g gs ih =>
    have hg := hok g (List.mem_cons_self _ _)
    have ihr := ih (fun u hu => hok u (List.mem_cons_of_mem _ hu))
    cases hb : b g args with
    | error e2 => rw [hb] at hg; simp [okYield] at hg
    | ok r =>
      cases r with
      | promiseR e2 => rw [hb] at hg; simp [okYield] at hg
      | plain v => simp [simpleEach, hb, callsOf, ihr.1, ihr.2]
      | promiseF v => simp [simpleEach, hb, callsOf, ihr.1, ihr.2]

/-- C5: under `awaitEach`, if listener k throws synchronously or its pulled
result rejects (every earlier listener fulfilling), then the listeners
registered after it are never invoked for that emission — the recorded
calls stop exactly at listener k — and the promise returned by `emit`
rejects with that failure. -/
theorem awaitEach_failure_halts_sequence (b : Nat → A → Except E (Res V E))
    (args : A) (l1 l2 : List Nat) (f : Nat) (e : E)
    (hok : ∀ g ∈ l1, okYield (b g args) = true)
    (hf : b f args = .error e ∨ b f args = .ok (.promiseR e)) :
    callsOf (awaitEachFrom b args
        ((l1 ++ f :: l2).map (fun g => ⟨.on, g⟩)) 0).evs =
      (l1 ++ [f]).map (fun g => (g, args)) ∧
    (awaitEachFrom b args ((l1 ++ f :: l2).map (fun g => ⟨.on, g⟩)) 0).err =
      some e := by
  have hk : ∀ w ∈ (l1 ++ f :: l2).map (fun g => (⟨.on, g⟩ : Wrapper)),
      w.kind = .on := by
    intro w hw
    rcases List.mem_map.mp hw with ⟨g, _, rfl⟩
    rfl
  have hbr := awaitEachFrom_eq_simpleEach b args
    ((l1 ++ f :: l2).map (fun g => ⟨.on, g⟩)) hk 0
  have hfns : (((l1 ++ f :: l2).map (fun g => (⟨.on, g⟩ : Wrapper))).drop
      0).map Wrapper.fn = l1 ++ f :: l2 := by
    simp only [List.drop_zero, List.map_map, Function.comp_def]
    exact List.map_id' _
  rw [hfns] at hbr
  rw [hbr]
  exact simpleEach_prefix_fail b args l1 f l2 e hok hf

/-- C5 witness: listener 1 fulfills, listener 2's result rejects with `9`,
listener 3 is never invoked; and listener 0 throwing `7` synchronously
halts before listener 1. -/
theorem awaitEach_failure_halts_sequence_witness :
    callsOf (awaitEachFrom bPromise 10
        [⟨.on, 1⟩, ⟨.on, 2⟩, ⟨.on, 3⟩] 0).evs = [(1, 10), (2, 10)] ∧
    (awaitEachFrom bPromise 10 [⟨.on, 1⟩, ⟨.on, 2⟩, ⟨.on, 3⟩] 0).err =
        some 9 ∧
    callsOf (awaitEachFrom bPromise 10 [⟨.on, 0⟩, ⟨.on, 1⟩] 0).evs =
        [(0, 10)] ∧
    (awaitEachFrom bPromise 10 [⟨.on, 0⟩, ⟨.on, 1⟩] 0).err = some 7 := by
  have h1 := awaitEach_failure_halts_sequence bPromise 10 [1] [3] 2 9
    (by decide) (Or.inr (by rfl))
  have h2 := awaitEach_failure_halts_sequence bPromise 10 [] [1] 0 7
    (by decide) (Or.inl (by rfl))
  exact ⟨h1.1, h1.2, h2.1, h2.2⟩

theorem getElem_mem_take {α : Type} (l : List α) :
    ∀ (i : Nat) (h : i < l.length), l.get ⟨i, h⟩ ∈ l.take (i + 1) := by
  induction l with
  | nil => intro i h; simp at h
  | cons x xs ih =>
    intro i h
    cases i with
    | zero => simp
    | succ k =>
      have hk : k < xs.length := by
        simp only [List.length_cons] at h
        omega
      simp only [List.take_succ_cons, List.get_cons_succ]
      exact List.mem_cons_of_mem _ (ih k hk)

/-- When the removed entry sits within the first `i` positions, dropping `i`
elements of the shrunk array lands one element further in the original:
this is exactly the element the live iterator skips. -/
theorem removeListener_drop (l : List Wrapper) (g : Nat) :
    ∀ i, g ∈ (l.take i).map Wrapper.fn →
      (removeListener l g).drop i = l.drop (i + 1) := by
  induction l with
  | nil => intro i h; simp at h
  | cons x xs ih =>
    intro i h
    cases i with
    | zero => simp at h
    | succ k =>
      by_cases hx : x.fn = g
      · simp only [removeListener, if_pos hx]
        rfl
      · have hmem : g ∈ (xs.take k).map Wrapper.fn := by
          simp only [List.take_succ_cons, List.map_cons, List.mem_cons] at h
          rcases h with h | h
          · exact absurd h.symm hx
          · exact h
        simp only [removeListener, if_neg hx]
        exact ih k hmem

theorem drainFrom_calls_sublist (b : Nat → A → Except E (Res V E)) (args : A)
    (arr : List Wrapper) (idx : Nat) :
    ((drainFrom b args arr idx).calls.map Prod.fst).Sublist
      ((arr.drop idx).map Wrapper.fn) := by
  have key : ∀ (n : Nat) (arr2 : List Wrapper) (i : Nat),
      arr2.length - i ≤ n →
      ((drainFrom b args arr2 i).calls.map Prod.fst).Sublist
        ((arr2.drop i).map Wrapper.fn) := by
    intro n
    induction n with
    | zero =>
      intro arr2 i hn
      rw [drainFrom_stop b args arr2 i (by omega)]
      exact List.nil_sublist _
    | succ n ih =>
      intro arr2 i hn
      by_cases h : i < arr2.length
      · rw [List.drop_eq_getElem_cons h]
        cases hb : b arr2[i].fn args with
        | error e =>
          rw [drainFrom_throw b args arr2 i h e hb]
          exact (List.nil_sublist _).cons₂ _
        | ok r =>
          rw [drainFrom_ok b args arr2 i h r hb]
          by_cases hkind : arr2[i].kind = Kind.once
          · rw [if_pos hkind]
            have hmem : arr2[i].fn ∈ (arr2.take (i + 1)).map Wrapper.fn := by
              exact List.mem_map_of_mem _ (getElem_mem_take arr2 i h)
            have hdrop := removeListener_drop arr2 arr2[i].fn (i + 1) hmem
            have hrec := ih (removeListener arr2 arr2[i].fn) (i + 1)
              (by have := removeListener_length_le arr2 arr2[i].fn; omega)
            rw [hdrop] at hrec
            have htail : ((arr2.drop (i + 2)).map Wrapper.fn).Sublist
                ((arr2.drop (i + 1)).map Wrapper.fn) := by
              have hsub : (arr2.drop (i + 2)).Sublist (arr2.drop (i + 1)) := by
                have : arr2.drop (i + 2) = (arr2.drop (i + 1)).tail := by
                  rw [List.tail_drop]
                rw [this]
                exact List.tail_sublist _
              exact hsub.map _
            simp only [List.map_cons]
            exact (hrec.trans htail).cons₂ _
          · rw [if_neg hkind]
            have hrec := ih arr2 (i + 1) (by omega)
            simp only [List.map_cons]
            exact hrec.cons₂ _
      · rw [drainFrom_stop b args arr2 i h]
        exact List.nil_sublist _
  exact key (arr.length - idx) arr idx (by omega)

theorem drainFrom_preserves_mem (b : Nat → A → Except E (Res V E)) (args : A)
    (w : Wrapper) (arr : List Wrapper) (idx : Nat) (hw : w ∈ arr)
    (hnc : w.fn ∉ (drainFrom b args arr idx).calls.map Prod.fst) :
    w ∈ (drainFrom b args arr idx).reg := by
  have key : ∀ (n : Nat) (arr2 : List Wrapper) (i : Nat),
      arr2.length - i ≤ n → w ∈ arr2 →
      w.fn ∉ (drainFrom b args arr2 i).calls.map Prod.fst →
      w ∈ (drainFrom b args arr2 i).reg := by
    intro n
    induction n with
    | zero =>
      intro arr2 i hn hw2 _
      rw [drainFrom_stop b args arr2 i (by omega)]
      exact hw2
    | succ n ih =>
      intro arr2 i hn hw2 hnc2
      by_cases h : i < arr2.length
      · cases hb : b arr2[i].fn args with
        | error e =>
          rw [drainFrom_throw b args arr2 i h e hb]
          exact hw2
        | ok r =>
          rw [drainFrom_ok b args arr2 i h r hb] at hnc2 ⊢
          simp only [List.map_cons, List.mem_cons, not_or] at hnc2
          by_cases hkind : arr2[i].kind = Kind.once
          · rw [if_pos hkind] at hnc2 ⊢
            have hw3 : w ∈ removeListener arr2 arr2[i].fn :=
              mem_removeListener_of_ne hw2 hnc2.1
            exact ih (removeListener arr2 arr2[i].fn) (i + 1)
              (by have := removeListener_length_le arr2 arr2[i].fn; omega)
              hw3 hnc2.2
          · rw [if_neg hkind] at hnc2 ⊢
            exact ih arr2 (i + 1) (by omega) hw2 hnc2.2
      · rw [drainFrom_stop b args arr2 i h]
        exact hw2
  exact key (arr.length - idx) arr idx (by omega) hw hnc

/-- C10: because the invocation sequence iterates the live listener array
while once-entries self-remove by shifting/splicing it, whenever the
once-listener at live position `idx` is invoked (returning normally) during
an emission, the listener sitting at position `idx + 1` (whose handler is
registered nowhere else) is skipped for that traversal: the emission calls
the once-listener first, every further call comes from positions `idx + 2`
onwards, the skipped listener's handler is never called, and its entry is
still registered when the emission ends.  In particular, emitting once to
an event with exactly two once-listeners invokes only the first. -/
theorem once_invocation_skips_next_listener
    (b : Nat → A → Except E (Res V E)) (args : A) (arr : List Wrapper)
    (idx : Nat) (h1 : idx + 1 < arr.length)
    (honce : (arr.get ⟨idx, by omega⟩).kind = Kind.once)
    (hok : (b (arr.get ⟨idx, by omega⟩).fn args).isOk = true)
    (huniq : ((arr.map Wrapper.fn).count (arr.get ⟨idx + 1, h1⟩).fn) = 1) :
    (drainFrom b args arr idx).calls.head? =
        some ((arr.get ⟨idx, by omega⟩).fn, args) ∧
    ((drainFrom b args arr idx).calls.tail).map Prod.fst ⊆
        (arr.drop (idx + 2)).map Wrapper.fn ∧
    (arr.get ⟨idx + 1, h1⟩).fn ∉
        (drainFrom b args arr idx).calls.map Prod.fst ∧
    arr.get ⟨idx + 1, h1⟩ ∈ (drainFrom b args arr idx).reg := by
  have h : idx < arr.length := by omega
  simp only [List.get_eq_getElem] at honce hok huniq ⊢
  obtain ⟨r, hb⟩ : ∃ r, b arr[idx].fn args = .ok r := by
    cases hbb : b arr[idx].fn args with
    | error e => rw [hbb] at hok; simp [Except.isOk, Except.toBool] at hok
    | ok r => exact ⟨r, rfl⟩
  have hdropsub : ((arr.drop idx).map Wrapper.fn).count arr[idx + 1].fn
      ≤ 1 := by
    calc ((arr.drop idx).map Wrapper.fn).count arr[idx + 1].fn
        ≤ (arr.map Wrapper.fn).count arr[idx + 1].fn :=
          ((arr.drop_sublist idx).map Wrapper.fn).count_le _
      _ = 1 := huniq
  have hexp : (arr.drop idx).map Wrapper.fn =
      arr[idx].fn :: arr[idx + 1].fn ::
        (arr.drop (idx + 2)).map Wrapper.fn := by
    rw [List.drop_eq_getElem_cons h, List.drop_eq_getElem_cons h1]
    simp only [List.map_cons]
  rw [hexp, List.count_cons, List.count_cons_self] at hdropsub
  have hne : arr[idx].fn ≠ arr[idx + 1].fn := by
    intro hEq
    have hbeq : (arr[idx].fn == arr[idx + 1].fn) = true := beq_iff_eq.mpr hEq
    rw [if_pos hbeq] at hdropsub
    omega
  have hnotin : arr[idx + 1].fn ∉ (arr.drop (idx + 2)).map Wrapper.fn := by
    intro hmem
    have hnc : ¬ ((arr[idx].fn == arr[idx + 1].fn) = true) :=
      fun hc => hne (beq_iff_eq.mp hc)
    rw [if_neg hnc] at hdropsub
    have hpos : 0 < List.count arr[idx + 1].fn
        ((arr.drop (idx + 2)).map Wrapper.fn) :=
      List.count_pos_iff_mem.mpr hmem
    omega
  rw [drainFrom_ok b args arr idx h r hb, if_pos honce]
  have hmemtake : arr[idx].fn ∈ (arr.take (idx + 1)).map Wrapper.fn :=
    List.mem_map_of_mem _ (getElem_mem_take arr idx h)
  have hdrop := removeListener_drop arr arr[idx].fn (idx + 1) hmemtake
  have hsub := drainFrom_calls_sublist b args
    (removeListener arr arr[idx].fn) (idx + 1)
  rw [hdrop] at hsub
  have htailsub : ((drainFrom b args (removeListener arr arr[idx].fn)
      (idx + 1)).calls.map Prod.fst) ⊆
      (arr.drop (idx + 2)).map Wrapper.fn := hsub.subset
  have hnotrest : arr[idx + 1].fn ∉ (drainFrom b args
      (removeListener arr arr[idx].fn) (idx + 1)).calls.map Prod.fst :=
    fun hc => hnotin (htailsub hc)
  refine ⟨rfl, htailsub, ?_, ?_⟩
  · simp only [List.map_cons, List.mem_cons, not_or]
    exact ⟨fun hc => hne hc.symm, hnotrest⟩
  · have hmem2 : arr[idx + 1] ∈ removeListener arr arr[idx].fn :=
      mem_removeListener_of_ne (arr.getElem_mem h1) (fun hc => hne hc.symm)
    exact drainFrom_preserves_mem b args arr[idx + 1]
      (removeListener arr arr[idx].fn) (idx + 1) hmem2 hnotrest

/-- C10 witness: two once-listeners 1 and 2; emitting invokes only listener
1, listener 2 is skipped yet still registered afterwards. -/
theorem once_invocation_skips_next_listener_witness :
    (drainFrom bPromise 0 [⟨.once, 1⟩, ⟨.once, 2⟩] 0).calls.head? =
        some (1, 0) ∧
    ((drainFrom bPromise 0 [⟨.once, 1⟩, ⟨.once, 2⟩] 0).calls.tail).map
        Prod.fst ⊆ [] ∧
    (2 : Nat) ∉ (drainFrom bPromise 0
        [⟨.once, 1⟩, ⟨.once, 2⟩] 0).calls.map Prod.fst ∧
    (⟨.once, 2⟩ : Wrapper) ∈ (drainFrom bPromise 0
        [⟨.once, 1⟩, ⟨.once, 2⟩] 0).reg :=
  once_invocation_skips_next_listener bPromise 0 [⟨.once, 1⟩, ⟨.once, 2⟩] 0
    (by decide) (by decide) (by decide) (by decide)

theorem count_map_fn_removeListener_self (l : List Wrapper) (g : Nat)
    (hg : ∃ u ∈ l, u.fn = g) :
    List.count g ((removeListener l g).map Wrapper.fn) + 1 =
      List.count g (l.map Wrapper.fn) := by
  induction l with
  | nil =>
    rcases hg with ⟨u, hu, _⟩
    simp at hu
  | cons x xs ih =>
    by_cases hx : x.fn = g
    · simp only [removeListener, if_pos hx, List.map_cons]
      rw [List.count_cons, if_pos (beq_iff_eq.mpr hx)]
    · have hg2 : ∃ u ∈ xs, u.fn = g := by
        rcases hg with ⟨u, hu, he⟩
        rcases List.mem_cons.mp hu with rfl | hmem
        · exact absurd he hx
        · exact ⟨u, hmem, he⟩
      have hnc : ¬ ((x.fn == g) = true) := fun hc => hx (beq_iff_eq.mp hc)
      simp only [removeListener, if_neg hx, List.map_cons]
      rw [List.count_cons, List.count_cons, if_neg hnc]
      have := ih hg2
      omega

theorem count_map_fn_removeListener_ne (l : List Wrapper) (g f : Nat)
    (hne : g ≠ f) :
    List.count f ((removeListener l g).map Wrapper.fn) =
      List.count f (l.map Wrapper.fn) := by
  induction l with
  | nil => rfl
  | cons x xs ih =>
    by_cases hx : x.fn = g
    · have hnc : ¬ ((x.fn == f) = true) := by
        intro hc
        exact hne (hx ▸ beq_iff_eq.mp hc)
      simp only [removeListener, if_pos hx, List.map_cons]
      rw [List.count_cons, if_neg hnc]
      omega
    · simp only [removeListener, if_neg hx, List.map_cons]
      rw [List.count_cons, List.count_cons, ih]

theorem drainFrom_reg_sublist (b : Nat → A → Except E (Res V E)) (args : A)
    (arr : List Wrapper) (idx : Nat) :
    (drainFrom b args arr idx).reg.Sublist arr := by
  have key : ∀ (n : Nat) (arr2 : List Wrapper) (i : Nat),
      arr2.length - i ≤ n → (drainFrom b args arr2 i).reg.Sublist arr2 := by
    intro n
    induction n with
    | zero =>
      intro arr2 i hn
      rw [drainFrom_stop b args arr2 i (by omega)]
    | succ n ih =>
      intro arr2 i hn
      by_cases h : i < arr2.length
      · cases hb : b arr2[i].fn args with
        | error e =>
          rw [drainFrom_throw b args arr2 i h e hb]
        | ok r =>
          rw [drainFrom_ok b args arr2 i h r hb]
          by_cases hkind : arr2[i].kind = Kind.once
          · rw [if_pos hkind]
            exact (ih (removeListener arr2 arr2[i].fn) (i + 1)
              (by have := removeListener_length_le arr2 arr2[i].fn; omega)).trans
              (removeListener_sublist arr2 arr2[i].fn)
          · rw [if_neg hkind]
            exact ih arr2 (i + 1) (by omega)
      · rw [drainFrom_stop b args arr2 i h]
  exact key (arr.length - idx) arr idx (by omega)

theorem awaitEachFrom_reg_sublist (b : Nat → A → Except E (Res V E))
    (args : A) (arr : List Wrapper) (idx : Nat) :
    (awaitEachFrom b args arr idx).reg.Sublist arr := by
  have key : ∀ (n : Nat) (arr2 : List Wrapper) (i : Nat),
      arr2.length - i ≤ n →
      (awaitEachFrom b args arr2 i).reg.Sublist arr2 := by
    intro n
    induction n with
    | zero =>
      intro arr2 i hn
      rw [awaitEachFrom_stop b args arr2 i (by omega)]
    | succ n ih =>
      intro arr2 i hn
      by_cases h : i < arr2.length
      · have harr2 : (if arr2[i].kind = Kind.once
            then removeListener arr2 arr2[i].fn else arr2).Sublist arr2 := by
          split
          · exact removeListener_sublist arr2 arr2[i].fn
          · exact List.Sublist.refl _
        have hlen : (if arr2[i].kind = Kind.once
            then removeListener arr2 arr2[i].fn else arr2).length - (i + 1)
            ≤ n := by
          have hl := removeListener_length_le arr2 arr2[i].fn
          split
          · omega
          · omega
        cases hb : b arr2[i].fn args with
        | error e =>
          rw [awaitEachFrom_throw b args arr2 i h e hb]
        | ok r =>
          cases r with
          | promiseR e =>
            rw [awaitEachFrom_reject b args arr2 i h e hb]
            exact harr2
          | plain v =>
            rw [awaitEachFrom_plain b args arr2 i h v hb]
            exact (ih _ (i + 1) hlen).trans harr2
          | promiseF v =>
            rw [awaitEachFrom_promiseF b args arr2 i h v hb]
            exact (ih _ (i + 1) hlen).trans harr2
      · rw [awaitEachFrom_stop b args arr2 i h]
  exact key (arr.length - idx) arr idx (by omega)

theorem drainFrom_once_fn_count (b : Nat → A → Except E (Res V E)) (args : A)
    (f : Nat) (arr : List Wrapper) (idx : Nat)
    (hk : ∀ w ∈ arr, w.fn = f → w.kind = Kind.once)
    (hok : (b f args).isOk = true) :
    List.count f ((drainFrom b args arr idx).calls.map Prod.fst) +
      List.count f ((drainFrom b args arr idx).reg.map Wrapper.fn) ≤
    List.count f (arr.map Wrapper.fn) := by
  have key : ∀ (n : Nat) (arr2 : List Wrapper) (i : Nat),
      arr2.length - i ≤ n →
      (∀ w ∈ arr2, w.fn = f → w.kind = Kind.once) →
      List.count f ((drainFrom b args arr2 i).calls.map Prod.fst) +
        List.count f ((drainFrom b args arr2 i).reg.map Wrapper.fn) ≤
      List.count f (arr2.map Wrapper.fn) := by
    intro n
    induction n with
    | zero =>
      intro arr2 i hn _
      rw [drainFrom_stop b args arr2 i (by omega)]
      simp
    | succ n ih =>
      intro arr2 i hn hk2
      by_cases h : i < arr2.length
      · cases hb : b arr2[i].fn args with
        | error e =>
          have hf : arr2[i].fn ≠ f := by
            intro hc
            rw [hc] at hb
            rw [hb] at hok
            simp [Except.isOk, Except.toBool] at hok
          have hnc : ¬ ((arr2[i].fn == f) = true) :=
            fun hc => hf (beq_iff_eq.mp hc)
          rw [drainFrom_throw b args arr2 i h e hb]
          simp only [List.map_cons, List.map_nil, List.count_cons,
            List.count_nil, if_neg hnc]
          omega
        | ok r =>
          rw [drainFrom_ok b args arr2 i h r hb]
          by_cases hf : arr2[i].fn = f
          · have hkind : arr2[i].kind = Kind.once :=
              hk2 _ (arr2.getElem_mem h) hf
            rw [if_pos hkind, hf]
            have hg : ∃ u ∈ arr2, u.fn = f :=
              ⟨arr2[i], arr2.getElem_mem h, hf⟩
            have hcnt := count_map_fn_removeListener_self arr2 f hg
            have hk3 : ∀ w ∈ removeListener arr2 f, w.fn = f →
                w.kind = Kind.once := fun w hw hwf =>
              hk2 w ((removeListener_sublist arr2 f).subset hw) hwf
            have ihr := ih (removeListener arr2 f) (i + 1)
              (by have := removeListener_length_le arr2 f; omega) hk3
            simp only [List.map_cons]
            rw [List.count_cons_self]
            omega
          · have hnc : ¬ ((arr2[i].fn == f) = true) :=
              fun hc => hf (beq_iff_eq.mp hc)
            by_cases hkind : arr2[i].kind = Kind.once
            · rw [if_pos hkind]
              have hcnt := count_map_fn_removeListener_ne arr2 arr2[i].fn f hf
              have hk3 : ∀ w ∈ removeListener arr2 arr2[i].fn, w.fn = f →
                  w.kind = Kind.once := fun w hw hwf =>
                hk2 w ((removeListener_sublist arr2 arr2[i].fn).subset hw) hwf
              have ihr := ih (removeListener arr2 arr2[i].fn) (i + 1)
                (by have := removeListener_length_le arr2 arr2[i].fn; omega)
                hk3
              simp only [List.map_cons, List.count_cons, if_neg hnc]
              omega
            · rw [if_neg hkind]
              have ihr := ih arr2 (i + 1) (by omega) hk2
              simp only [List.map_cons, List.count_cons, if_neg hnc]
              omega
      · rw [drainFrom_stop b args arr2 i h]
        simp
  exact key (arr.length - idx) arr idx (by omega) hk

theorem awaitEachFrom_once_fn_count (b : Nat → A → Except E (Res V E))
    (args : A) (f : Nat) (arr : List Wrapper) (idx : Nat)
    (hk : ∀ w ∈ arr, w.fn = f → w.kind = Kind.once)
    (hok : (b f args).isOk = true) :
    List.count f ((callsOf (awaitEachFrom b args arr idx).evs).map Prod.fst) +
      List.count f ((awaitEachFrom b args arr idx).reg.map Wrapper.fn) ≤
    List.count f (arr.map Wrapper.fn) := by
  have key : ∀ (n : Nat) (arr2 : List Wrapper) (i : Nat),
      arr2.length - i ≤ n →
      (∀ w ∈ arr2, w.fn = f → w.kind = Kind.once) →
      List.count f ((callsOf (awaitEachFrom b args arr2 i).evs).map
        Prod.fst) +
        List.count f ((awaitEachFrom b args arr2 i).reg.map Wrapper.fn) ≤
      List.count f (arr2.map Wrapper.fn) := by
    intro n
    induction n with
    | zero =>
      intro arr2 i hn _
      rw [awaitEachFrom_stop b args arr2 i (by omega)]
      simp [callsOf]
    | succ n ih =>
      intro arr2 i hn hk2
      by_cases h : i < arr2.length
      · have hlen : (if arr2[i].kind = Kind.once
            then removeListener arr2 arr2[i].fn else arr2).length - (i + 1)
            ≤ n := by
          have hl := removeListener_length_le arr2 arr2[i].fn
          split
          · omega
          · omega
        have hk3 : ∀ w ∈ (if arr2[i].kind = Kind.once
            then removeListener arr2 arr2[i].fn else arr2), w.fn = f →
            w.kind = Kind.once := by
          intro w hw hwf
          refine hk2 w ?_ hwf
          by_cases hkind : arr2[i].kind = Kind.once
          · rw [if_pos hkind] at hw
            exact (removeListener_sublist arr2 arr2[i].fn).subset hw
          · rw [if_neg hkind] at hw
            exact hw
        have hcnt2 : List.count f ((if arr2[i].kind = Kind.once
            then removeListener arr2 arr2[i].fn else arr2).map Wrapper.fn) +
            (if (arr2[i].fn == f) = true then 1 else 0) ≤
            List.count f (arr2.map Wrapper.fn) := by
          by_cases hf : arr2[i].fn = f
          · have hkind : arr2[i].kind = Kind.once :=
              hk2 _ (arr2.getElem_mem h) hf
            rw [if_pos hkind, hf, if_pos (beq_self_eq_true f)]
            have hg : ∃ u ∈ arr2, u.fn = f :=
              ⟨arr2[i], arr2.getElem_mem h, hf⟩
            have hcnt := count_map_fn_removeListener_self arr2 f hg
            omega
          · rw [if_neg (fun hc => hf (beq_iff_eq.mp hc))]
            by_cases hkind : arr2[i].kind = Kind.once
            · rw [if_pos hkind]
              have hcnt := count_map_fn_removeListener_ne arr2 arr2[i].fn
                f hf
              omega
            · rw [if_neg hkind]
              omega
        cases hb : b arr2[i].fn args with
        | error e =>
          have hf : arr2[i].fn ≠ f := by
            intro hc
            rw [hc] at hb
            rw [hb] at hok
            simp [Except.isOk, Except.toBool] at hok
          have hnc : ¬ ((arr2[i].fn == f) = true) :=
            fun hc => hf (beq_iff_eq.mp hc)
          rw [awaitEachFrom_throw b args arr2 i h e hb]
          simp only [callsOf, List.map_cons, List.map_nil, List.count_cons,
            List.count_nil, if_neg hnc]
          omega
        | ok r =>
          cases r with
          | promiseR e =>
            rw [awaitEachFrom_reject b args arr2 i h e hb]
            simp only [callsOf, List.map_cons, List.map_nil, List.count_cons,
              List.count_nil]
            omega
          | plain v =>
            rw [awaitEachFrom_plain b args arr2 i h v hb]
            have ihr := ih _ (i + 1) hlen hk3
            simp only [callsOf, List.map_cons, List.count_cons]
            omega
          | promiseF v =>
            rw [awaitEachFrom_promiseF b args arr2 i h v hb]
            have ihr := ih _ (i + 1) hlen hk3
            simp only [callsOf, List.map_cons, List.count_cons]
            omega
      · rw [awaitEachFrom_stop b args arr2 i h]
        simp [callsOf]
  exact key (arr.length - idx) arr idx (by omega) hk

/-- Which strategy drives an emission.  `ignoreEach`, `awaitAll` and
`awaitAllSettled` all pull the invocation sequence to completion (or to the
first synchronous throw); `awaitEach` may additionally stop at the first
rejection. -/
inductive Strat where
  | sIgnore : Strat
  | sAwaitEach : Strat
  | sAwaitAll : Strat
  | sAwaitAllSettled : Strat
deriving DecidableEq, Repr

/-- The listener array left behind by one emission under a strategy. -/
def emitReg (s : Strat) (b : Nat → A → Except E (Res V E)) (args : A)
    (arr : List Wrapper) : List Wrapper :=
  match s with
  | .sAwaitEach => (awaitEachFrom b args arr 0).reg
  | _ => (drainFrom b args arr 0).reg

/-- The handler calls made by one emission under a strategy, in order. -/
def emitCalls (s : Strat) (b : Nat → A → Except E (Res V E)) (args : A)
    (arr : List Wrapper) : List (Nat × A) :=
  match s with
  | .sAwaitEach => callsOf (awaitEachFrom b args arr 0).evs
  | _ => (drainFrom b args arr 0).calls

/-- All handler calls made by a sequence of emissions (a strategy and an
argument tuple per emission), threading the registry from one emission to
the next. -/
def runEmissions (b : Nat → A → Except E (Res V E)) :
    List (Strat × A) → List Wrapper → List (Nat × A)
  | [], _ => []
  | (s, a) :: plan, arr =>
    emitCalls s b a arr ++ runEmissions b plan (emitReg s b a arr)

theorem emitReg_sublist (s : Strat) (b : Nat → A → Except E (Res V E))
    (args : A) (arr : List Wrapper) : (emitReg s b args arr).Sublist arr := by
  cases s with
  | sAwaitEach => exact awaitEachFrom_reg_sublist b args arr 0
  | sIgnore => exact drainFrom_reg_sublist b args arr 0
  | sAwaitAll => exact drainFrom_reg_sublist b args arr 0
  | sAwaitAllSettled => exact drainFrom_reg_sublist b args arr 0

theorem emit_once_fn_count (s : Strat) (b : Nat → A → Except E (Res V E))
    (args : A) (f : Nat) (arr : List Wrapper)
    (hk : ∀ w ∈ arr, w.fn = f → w.kind = Kind.once)
    (hok : (b f args).isOk = true) :
    List.count f ((emitCalls s b args arr).map Prod.fst) +
      List.count f ((emitReg s b args arr).map Wrapper.fn) ≤
    List.count f (arr.map Wrapper.fn) := by
  cases s with
  | sAwaitEach => exact awaitEachFrom_once_fn_count b args f arr 0 hk hok
  | sIgnore => exact drainFrom_once_fn_count b args f arr 0 hk hok
  | sAwaitAll => exact drainFrom_once_fn_count b args f arr 0 hk hok
  | sAwaitAllSettled => exact drainFrom_once_fn_count b args f arr 0 hk hok

theorem runEmissions_once_fn_count (b : Nat → A → Except E (Res V E))
    (f : Nat) (plan : List (Strat × A)) (arr : List Wrapper)
    (hk : ∀ w ∈ arr, w.fn = f → w.kind = Kind.once)
    (hok : ∀ p ∈ plan, (b f p.2).isOk = true) :
    List.count f ((runEmissions b plan arr).map Prod.fst) ≤
      List.count f (arr.map Wrapper.fn) := by
  induction plan generalizing arr with
  | nil => simp [runEmissions]
  | cons p plan ih =>
    obtain ⟨s, a⟩ := p
    have hok1 : (b f a).isOk = true := hok _ (List.mem_cons_self _ _)
    have hemit := emit_once_fn_count s b a f arr hk hok1
    have hk2 : ∀ w ∈ emitReg s b a arr, w.fn = f → w.kind = Kind.once :=
      fun w hw hwf => hk w ((emitReg_sublist s b a arr).subset hw) hwf
    have ihr := ih (emitReg s b a arr) hk2
      (fun q hq => hok q (List.mem_cons_of_mem _ hq))
    simp only [runEmissions, List.map_append, List.count_append]
    omega

/-- C2 counterexample: a single `once` listener (handler 0) that throws.
`OnceListener.invoke` calls the handler before removing the entry, so the
throw skips the removal: after the first emission the entry is still
registered, and a second emission of the same event invokes the handler
again — the handler of a `once` listener is invoked twice, and no entry was
removed while producing its (never-yielded) element. -/
theorem once_throwing_listener_invoked_twice :
    (drainFrom bPlain 5 [⟨.once, 0⟩] 0).calls = [(0, 5)] ∧
    (drainFrom bPlain 5 [⟨.once, 0⟩] 0).reg = [⟨.once, 0⟩] ∧
    (drainFrom bPlain 5 ((drainFrom bPlain 5 [⟨.once, 0⟩] 0).reg) 0).calls =
      [(0, 5)] := by
  refine ⟨?_, ?_, ?_⟩ <;> simp [drainFrom, bPlain]

/-- C2 (amended): a `once` listener whose handler returns normally has the
earliest registry entry matching its handler removed as part of producing
its invocation element, before the element is yielded (the element's tail
is already computed over the shrunk array); and when every entry holding
its handler is `once`-registered, the handler occurs in at most one entry,
and it returns normally whenever called, the handler is invoked at most
once across any number of subsequent emissions under any of the four
strategies.  (A handler that throws is not removed — see the
counterexample — and a duplicate registration of the same handler would
make the `once` wrapper remove the earlier duplicate instead of itself,
hence the uniqueness hypothesis.) -/
theorem once_normal_unique_invoked_at_most_once
    (b : Nat → A → Except E (Res V E)) (f : Nat) :
    (∀ (args : A) (arr : List Wrapper) (idx : Nat) (h : idx < arr.length)
        (r : Res V E),
      (arr.get ⟨idx, h⟩).kind = Kind.once → (arr.get ⟨idx, h⟩).fn = f →
      b f args = .ok r →
      drainFrom b args arr idx =
        ⟨(f, args) ::
           (drainFrom b args (removeListener arr f) (idx + 1)).calls,
         r :: (drainFrom b args (removeListener arr f) (idx + 1)).yields,
         (drainFrom b args (removeListener arr f) (idx + 1)).reg,
         (drainFrom b args (removeListener arr f) (idx + 1)).err⟩) ∧
    (∀ (plan : List (Strat × A)) (arr : List Wrapper),
      (∀ w ∈ arr, w.fn = f → w.kind = Kind.once) →
      List.count f (arr.map Wrapper.fn) ≤ 1 →
      (∀ p ∈ plan, (b f p.2).isOk = true) →
      List.count f ((runEmissions b plan arr).map Prod.fst) ≤ 1) := by
  constructor
  · intro args arr idx h r hkind hfn hb
    simp only [List.get_eq_getElem] at hkind hfn
    have hb2 : b arr[idx].fn args = .ok r := by rw [hfn]; exact hb
    rw [drainFrom_ok b args arr idx h r hb2, if_pos hkind, hfn]
  · intro plan arr hk hcnt hok
    exact le_trans (runEmissions_once_fn_count b f plan arr hk hok) hcnt

/-- C2 amended-claim witness: the once-entry for handler 3 is removed while
its element is produced; across three emissions (ignoreEach, awaitEach,
awaitAll) handler 3 is called at most once. -/
theorem once_normal_unique_invoked_at_most_once_witness :
    drainFrom bPromise 10 [⟨.once, 3⟩, ⟨.on, 4⟩] 0 =
      ⟨(3, 10) ::
         (drainFrom bPromise 10
           (removeListener [⟨.once, 3⟩, ⟨.on, 4⟩] 3) 1).calls,
       .plain 13 :: (drainFrom bPromise 10
           (removeListener [⟨.once, 3⟩, ⟨.on, 4⟩] 3) 1).yields,
       (drainFrom bPromise 10
           (removeListener [⟨.once, 3⟩, ⟨.on, 4⟩] 3) 1).reg,
       (drainFrom bPromise 10
           (removeListener [⟨.once, 3⟩, ⟨.on, 4⟩] 3) 1).err⟩ ∧
    List.count 3 ((runEmissions bPromise
        [(.sIgnore, 10), (.sAwaitEach, 20), (.sAwaitAll, 30)]
        [⟨.once, 3⟩, ⟨.on, 4⟩]).map Prod.fst) ≤ 1 := by
  have h := once_normal_unique_invoked_at_most_once bPromise 3
  constructor
  · exact h.1 10 [⟨.once, 3⟩, ⟨.on, 4⟩] 0 (by decide) (.plain 13)
      (by decide) (by decide) (by rfl)
  · exact h.2 [(.sIgnore, 10), (.sAwaitEach, 20), (.sAwaitAll, 30)]
      [⟨.once, 3⟩, ⟨.on, 4⟩] (by decide) (by decide) (by decide)

end Emission

end TsEmitter
